import Mathlib

/-!
# Verification of the delay-tracking price engine

Shallow embedding of the tracking engine of the `delay-tracking` repository:
the priority scheduler (`scripts/utils/tracking-priority.ts`), URL
normalization and product hashing (`scripts/utils/db.ts`), the observation
recorder (`scripts/track-prices.ts`), and the two fetch strategies
(`scripts/tracking/strategies/http-fast.ts`, `browser-hard.ts`).

Conventions of the embedding:
* JavaScript timestamps (`Date.getTime()`) are rationals counting
  milliseconds since the epoch; differences and divisions are exact.
* JavaScript `null`/`undefined` record fields become `Option`.
* Code that can throw is modelled in `Except JsError`; a `try { … } catch`
  block is the obvious fold from `Except` back to a plain value.
* Platform primitives (the WHATWG `URL` class, `JSON.parse`, `fetch`,
  puppeteer calls) are modelled explicitly where their behaviour matters
  (the URL parser/serializer) and as environment-supplied outcomes where
  the code only branches on the result (network and browser operations).
-/

/-! ## Priority scheduler (`scripts/utils/tracking-priority.ts`) -/

/-- `enum TrackingPriority` from `tracking-priority.ts`. -/
inductive TrackingPriority where
  | high
  | medium
  | low
  | inactive
deriving DecidableEq, Repr

/-- The recency-of-interest signals `calculatePriority` reads off its
`product` argument: `watchlist_count` (a row count, never negative),
`last_visited_at` and `last_price_change_at` (timestamps or `null`). -/
structure ProductSignals where
  watchlist_count : Nat
  last_visited_at : Option ℚ
  last_price_change_at : Option ℚ
deriving DecidableEq, Repr

/-- `1000 * 60 * 60 * 24`, the divisor turning a millisecond difference
into days in `calculatePriority`. -/
def msPerDay : ℚ := 1000 * 60 * 60 * 24

/-- `1000 * 60 * 60`, the divisor turning a millisecond difference into
hours in `shouldTrackProduct`. -/
def msPerHour : ℚ := 1000 * 60 * 60

/-- The guard `if (product.last_visited_at) { const daysSinceVisit = …;
if (daysSinceVisit <= d) … }` from `calculatePriority` (used with `d = 7`
and `d = 30`): the field is non-null and the elapsed days are at most `d`. -/
def visitedWithinDays (now : ℚ) (product : ProductSignals) (d : ℚ) : Bool :=
  match product.last_visited_at with
  | none => false
  | some lastVisit => decide ((now - lastVisit) / msPerDay ≤ d)

/-- The analogous guard on `product.last_price_change_at`. -/
def priceChangedWithinDays (now : ℚ) (product : ProductSignals) (d : ℚ) : Bool :=
  match product.last_price_change_at with
  | none => false
  | some lastChange => decide ((now - lastChange) / msPerDay ≤ d)

/-- `calculatePriority` from `tracking-priority.ts`: the early-return
chain becomes nested `if`s.  `now` is `new Date().getTime()`. -/
def calculatePriority (now : ℚ) (product : ProductSignals) : TrackingPriority :=
  if product.watchlist_count > 0 then .high
  else if visitedWithinDays now product 7 then .high
  else if priceChangedWithinDays now product 7 then .medium
  else if visitedWithinDays now product 30 then .low
  else .inactive

/-- `interface ProductWithPriority` from `tracking-priority.ts`. -/
structure ProductWithPriority where
  id : String
  merchant : String
  original_url : String
  normalized_url : String
  title : String
  priority : TrackingPriority
  last_tracked_at : Option ℚ
  last_price_change_at : Option ℚ
deriving DecidableEq, Repr

/-- `shouldTrackProduct` from `tracking-priority.ts`.  The `default`
branch of the `switch` is unreachable because the enum is exhaustive. -/
def shouldTrackProduct (now : ℚ) (product : ProductWithPriority) : Bool :=
  match product.last_tracked_at with
  | none => true
  | some lastTracked =>
    let hoursSinceTracking := (now - lastTracked) / msPerHour
    match product.priority with
    | .high => decide (hoursSinceTracking ≥ 12)
    | .medium => decide (hoursSinceTracking ≥ 24)
    | .low => decide (hoursSinceTracking ≥ 168)
    | .inactive => decide (hoursSinceTracking ≥ 720)

/-- The `priorityOrder` table used by the sort comparator in
`getProductsToTrack`. -/
def priorityOrder : TrackingPriority → Nat
  | .high => 0
  | .medium => 1
  | .low => 2
  | .inactive => 3

/-- The comparator `(a, b) => priorityOrder[a.priority] - priorityOrder[b.priority]`
passed to `Array.prototype.sort`, as the Boolean "`a` may come before `b`"
relation (comparator result `≤ 0`). -/
def tierLe (a b : ProductWithPriority) : Bool :=
  priorityOrder a.priority ≤ priorityOrder b.priority

/-- The pure core of `getProductsToTrack` from `tracking-priority.ts`,
after the database reads have produced `products` (each already carrying
the priority computed by `calculatePriority`): the force/filter choice,
the stable sort by priority, and `slice(0, limit)`.
`Array.prototype.sort` is required by ECMAScript to be stable, so it is
modelled by the stable `List.mergeSort` with the same comparator. -/
def getProductsToTrackCore (now : ℚ) (force : Bool) (limit : Nat)
    (products : List ProductWithPriority) : List ProductWithPriority :=
  let productsToTrack :=
    if force then products else products.filter (shouldTrackProduct now)
  let sorted := productsToTrack.mergeSort tierLe
  sorted.take limit

/-- Per-tier minimum re-check interval in hours, as hard-coded in the
`switch` of `shouldTrackProduct`. -/
def tierThresholdHours : TrackingPriority → ℚ
  | .high => 12
  | .medium => 24
  | .low => 168
  | .inactive => 720

/-- C1: Priority tier assignment is a total, deterministic function of the
tracking signals (it is a Lean function, so every signal combination maps
to exactly one tier), and the tier is HIGH iff `watch_count > 0` or the
last view was at most 7 days ago (inclusive), else MEDIUM iff the last
price change was at most 7 days ago, else LOW iff the last view was at
most 30 days ago, else INACTIVE.  The final conjunct checks the boundary:
a view exactly 7.0 days ago yields HIGH. -/
theorem calculatePriority_tier_characterization :
    (∀ (now : ℚ) (p : ProductSignals),
      (calculatePriority now p = .high ↔
        (p.watchlist_count > 0 ∨ visitedWithinDays now p 7 = true)) ∧
      (calculatePriority now p = .medium ↔
        (¬(p.watchlist_count > 0 ∨ visitedWithinDays now p 7 = true) ∧
          priceChangedWithinDays now p 7 = true)) ∧
      (calculatePriority now p = .low ↔
        (¬(p.watchlist_count > 0 ∨ visitedWithinDays now p 7 = true) ∧
          ¬priceChangedWithinDays now p 7 = true ∧
          visitedWithinDays now p 30 = true)) ∧
      (calculatePriority now p = .inactive ↔
        (¬(p.watchlist_count > 0 ∨ visitedWithinDays now p 7 = true) ∧
          ¬priceChangedWithinDays now p 7 = true ∧
          ¬visitedWithinDays now p 30 = true))) ∧
    calculatePriority (7 * msPerDay) ⟨0, some 0, none⟩ = .high := by
  constructor
  · intro now p
    unfold calculatePriority
    split_ifs with h1 h2 h3 h4 <;> simp_all
  · norm_num [calculatePriority, visitedWithinDays, msPerDay]

/-- C2: a product with no prior tracking timestamp is always due;
otherwise it is due iff the hours elapsed since its last tracking are `≥`
its tier's threshold (HIGH 12, MEDIUM 24, LOW 168, INACTIVE 720).  The
final conjuncts check the boundary for a HIGH product: tracked exactly
10 hours ago is not due, exactly 12.0 hours ago is due. -/
theorem shouldTrackProduct_due_rule :
    (∀ (now : ℚ) (p : ProductWithPriority),
      p.last_tracked_at = none → shouldTrackProduct now p = true) ∧
    (∀ (now : ℚ) (p : ProductWithPriority) (t : ℚ),
      p.last_tracked_at = some t →
      (shouldTrackProduct now p = true ↔
        (now - t) / msPerHour ≥ tierThresholdHours p.priority)) ∧
    shouldTrackProduct (10 * msPerHour)
      ⟨"p1", "m", "u", "u", "t", .high, some 0, none⟩ = false ∧
    shouldTrackProduct (12 * msPerHour)
      ⟨"p1", "m", "u", "u", "t", .high, some 0, none⟩ = true := by
  refine ⟨?_, ?_, ?_, ?_⟩
  · intro now p h
    simp [shouldTrackProduct, h]
  · intro now p t h
    cases hp : p.priority <;>
      simp [shouldTrackProduct, h, hp, tierThresholdHours, ge_iff_le]
  · norm_num [shouldTrackProduct, msPerHour]
  · norm_num [shouldTrackProduct, msPerHour]

/-- Witness for `shouldTrackProduct_due_rule`: a never-tracked HIGH
product is due. -/
theorem shouldTrackProduct_due_rule_witness :
    shouldTrackProduct 0 ⟨"p1", "m", "u", "u", "t", .high, none, none⟩ = true :=
  shouldTrackProduct_due_rule.1 0 ⟨"p1", "m", "u", "u", "t", .high, none, none⟩ rfl

/-- The products of a given tier, in catalog order. -/
def byTier (t : TrackingPriority) (l : List ProductWithPriority) : List ProductWithPriority :=
  l.filter (fun p => p.priority == t)

/-- The work-list order the spec describes: HIGH, then MEDIUM, then LOW,
then INACTIVE, catalog order preserved within each tier. -/
def tierGroups (l : List ProductWithPriority) : List ProductWithPriority :=
  byTier .high l ++ byTier .medium l ++ byTier .low l ++ byTier .inactive l

lemma tierLe_trans (a b c : ProductWithPriority) :
    tierLe a b → tierLe b c → tierLe a c := by
  simp only [tierLe, decide_eq_true_eq]
  omega

lemma tierLe_total (a b : ProductWithPriority) : tierLe a b || tierLe b a := by
  simp only [tierLe, Bool.or_eq_true, decide_eq_true_eq]
  omega

lemma mem_byTier {t : TrackingPriority} {l : List ProductWithPriority}
    {x : ProductWithPriority} (h : x ∈ byTier t l) : x.priority = t := by
  simp only [byTier, List.mem_filter, beq_iff_eq] at h
  exact h.2

/-- If a concatenation of a `P`-block and a `¬P`-block equals another such
concatenation, the blocks agree. -/
lemma split_at_boundary {α : Type _} (P : α → Prop) :
    ∀ (xs : List α) {ys : List α} (us : List α) {vs : List α},
      xs ++ ys = us ++ vs →
      (∀ x ∈ xs, P x) → (∀ y ∈ ys, ¬ P y) →
      (∀ u ∈ us, P u) → (∀ v ∈ vs, ¬ P v) → xs = us ∧ ys = vs := by
  intro xs
  induction xs with
  | nil =>
    intro ys us vs h _ hy hu _
    cases us with
    | nil => simpa using h
    | cons u us' =>
      exfalso
      refine hy u ?_ (hu u (by simp))
      simp only [List.nil_append] at h
      rw [h]
      simp
  | cons x xs ih =>
    intro ys us vs h hx hy hu hv
    cases us with
    | nil =>
      exfalso
      refine hv x ?_ (hx x (by simp))
      simp only [List.nil_append] at h
      rw [← h]
      simp
    | cons u us' =>
      simp only [List.cons_append, List.cons.injEq] at h
      obtain ⟨rfl, h⟩ := h
      obtain ⟨h1, h2⟩ := ih us' h (fun b hb => hx b (by simp [hb])) hy
        (fun b hb => hu b (by simp [hb])) hv
      exact ⟨by rw [h1], h2⟩

@[simp] lemma priorityOrder_high : priorityOrder .high = 0 := rfl

@[simp] lemma priorityOrder_medium : priorityOrder .medium = 1 := rfl

@[simp] lemma priorityOrder_low : priorityOrder .low = 2 := rfl

@[simp] lemma priorityOrder_inactive : priorityOrder .inactive = 3 := rfl

lemma byTier_cons_eq {a : ProductWithPriority} {t : TrackingPriority}
    (l : List ProductWithPriority) (h : a.priority = t) :
    byTier t (a :: l) = a :: byTier t l := by
  simp [byTier, List.filter_cons, h]

lemma byTier_cons_ne {a : ProductWithPriority} {t : TrackingPriority}
    (l : List ProductWithPriority) (h : a.priority ≠ t) :
    byTier t (a :: l) = byTier t l := by
  simp [byTier, List.filter_cons, h]

/-- The JS stable sort with the `priorityOrder` comparator groups the
list into the four tiers, preserving catalog order inside each tier. -/
theorem mergeSort_tierLe_eq_tierGroups (l : List ProductWithPriority) :
    l.mergeSort tierLe = tierGroups l := by
  induction l with
  | nil => simp [tierGroups, byTier]
  | cons a l ih =>
    obtain ⟨l₁, l₂, hsplit, hrest, hl₁⟩ := List.mergeSort_cons tierLe_trans tierLe_total a l
    have hsorted := List.sorted_mergeSort tierLe_trans tierLe_total (a :: l)
    rw [hsplit] at hsorted
    have hl₂ : ∀ b ∈ l₂, priorityOrder a.priority ≤ priorityOrder b.priority := by
      have hp := List.pairwise_append.mp hsorted
      have h2 := (List.pairwise_cons.mp hp.2.1).1
      intro b hb
      simpa [tierLe] using h2 b hb
    have hl₁' : ∀ b ∈ l₁, priorityOrder b.priority < priorityOrder a.priority := by
      intro b hb
      have := hl₁ b hb
      simp only [tierLe, Bool.not_eq_true', decide_eq_false_iff_not, not_le] at this
      exact this
    rw [ih] at hrest
    have hrest1 : l₁ ++ l₂ =
        byTier .high l ++ (byTier .medium l ++ (byTier .low l ++ byTier .inactive l)) := by
      rw [← hrest]
      simp [tierGroups, List.append_assoc]
    have hrest2 : l₁ ++ l₂ =
        (byTier .high l ++ byTier .medium l) ++ (byTier .low l ++ byTier .inactive l) := by
      rw [hrest1]
      simp [List.append_assoc]
    have hrest3 : l₁ ++ l₂ =
        (byTier .high l ++ byTier .medium l ++ byTier .low l) ++ byTier .inactive l := by
      rw [hrest1]
      simp [List.append_assoc]
    rcases ha : a.priority with _ | _ | _ | _
    · -- HIGH: nothing can be strictly smaller than tier 0, so l₁ = []
      have e1 : l₁ = [] := by
        rw [List.eq_nil_iff_forall_not_mem]
        intro b hb
        have h' := hl₁' b hb
        rw [ha] at h'
        simp at h'
      rw [e1, List.nil_append] at hrest
      rw [hsplit, e1, List.nil_append, ← hrest]
      simp only [tierGroups, byTier_cons_eq _ ha,
        byTier_cons_ne _ (show a.priority ≠ .medium by rw [ha]; simp),
        byTier_cons_ne _ (show a.priority ≠ .low by rw [ha]; simp),
        byTier_cons_ne _ (show a.priority ≠ .inactive by rw [ha]; simp)]
      try simp [List.append_assoc]
    · -- MEDIUM: l₁ is exactly the HIGH block
      obtain ⟨e1, e2⟩ := split_at_boundary
        (fun x => priorityOrder x.priority < 1) l₁ (byTier .high l) hrest1
        (fun b hb => by have h' := hl₁' b hb; rw [ha] at h'; simpa using h')
        (fun y hy => by
          have h' := hl₂ y hy; rw [ha] at h'; simp at h'
          show ¬priorityOrder y.priority < 1
          omega)
        (fun u hu => by
          have h' := mem_byTier hu
          show priorityOrder u.priority < 1
          rw [h']; simp)
        (fun v hv => by
          show ¬priorityOrder v.priority < 1
          simp only [List.mem_append] at hv
          rcases hv with hv | hv | hv <;> { rw [mem_byTier hv]; simp })
      rw [hsplit, e1, e2]
      simp only [tierGroups, byTier_cons_eq _ ha,
        byTier_cons_ne _ (show a.priority ≠ .high by rw [ha]; simp),
        byTier_cons_ne _ (show a.priority ≠ .low by rw [ha]; simp),
        byTier_cons_ne _ (show a.priority ≠ .inactive by rw [ha]; simp)]
      try simp [List.append_assoc]
    · -- LOW: l₁ is the HIGH block followed by the MEDIUM block
      obtain ⟨e1, e2⟩ := split_at_boundary
        (fun x => priorityOrder x.priority < 2) l₁
        (byTier .high l ++ byTier .medium l) hrest2
        (fun b hb => by have h' := hl₁' b hb; rw [ha] at h'; simpa using h')
        (fun y hy => by
          have h' := hl₂ y hy; rw [ha] at h'; simp at h'
          show ¬priorityOrder y.priority < 2
          omega)
        (fun u hu => by
          show priorityOrder u.priority < 2
          simp only [List.mem_append] at hu
          rcases hu with hu | hu <;> { rw [mem_byTier hu]; simp })
        (fun v hv => by
          show ¬priorityOrder v.priority < 2
          simp only [List.mem_append] at hv
          rcases hv with hv | hv <;> { rw [mem_byTier hv]; simp })
      rw [hsplit, e1, e2]
      simp only [tierGroups, byTier_cons_eq _ ha,
        byTier_cons_ne _ (show a.priority ≠ .high by rw [ha]; simp),
        byTier_cons_ne _ (show a.priority ≠ .medium by rw [ha]; simp),
        byTier_cons_ne _ (show a.priority ≠ .inactive by rw [ha]; simp)]
      try simp [List.append_assoc]
    · -- INACTIVE: l₁ is everything except the INACTIVE block
      obtain ⟨e1, e2⟩ := split_at_boundary
        (fun x => priorityOrder x.priority < 3) l₁
        (byTier .high l ++ byTier .medium l ++ byTier .low l) hrest3
        (fun b hb => by have h' := hl₁' b hb; rw [ha] at h'; simpa using h')
        (fun y hy => by
          have h' := hl₂ y hy; rw [ha] at h'; simp at h'
          show ¬priorityOrder y.priority < 3
          omega)
        (fun u hu => by
          show priorityOrder u.priority < 3
          simp only [List.mem_append] at hu
          rcases hu with (hu | hu) | hu <;> { rw [mem_byTier hu]; simp })
        (fun v hv => by
          show ¬priorityOrder v.priority < 3
          rw [mem_byTier hv]; simp)
      rw [hsplit, e1, e2]
      simp only [tierGroups, byTier_cons_eq _ ha,
        byTier_cons_ne _ (show a.priority ≠ .high by rw [ha]; simp),
        byTier_cons_ne _ (show a.priority ≠ .medium by rw [ha]; simp),
        byTier_cons_ne _ (show a.priority ≠ .low by rw [ha]; simp)]
      try simp [List.append_assoc]

/-- C3: the scheduler's work-list construction.  With `force` disabled it
keeps exactly the due products (`shouldTrackProduct` filter), with `force`
enabled it keeps every eligible product; the kept products are ordered
HIGH, MEDIUM, LOW, INACTIVE with catalog order preserved within each tier
(the sort is stable), and the result is truncated to the first `limit`
items. -/
theorem getProductsToTrack_worklist (now : ℚ) (force : Bool) (limit : Nat)
    (products : List ProductWithPriority) :
    getProductsToTrackCore now force limit products =
      ((fun kept =>
          byTier .high kept ++ byTier .medium kept ++
          byTier .low kept ++ byTier .inactive kept)
        (if force then products else products.filter (shouldTrackProduct now))).take
        limit := by
  simp only [getProductsToTrackCore, mergeSort_tierLe_eq_tierGroups, tierGroups]

/-! ## Observation recorder (`scripts/track-prices.ts`) -/

/-- The pure core of `handleDatabaseUpdate` from `track-prices.ts`:
`snapshots` is the product's stored `price_snapshots.price` column, most
recent first (the code reads the head via
`order('created_at', {ascending:false}).limit(1).single()`), and an
insert prepends.  A new observation is inserted only when there is no
prior one or the latest stored price differs (`!==`) from the new one;
afterwards `updateLastTracked` runs unconditionally (second component of
the result). -/
def handleDatabaseUpdate (newPrice : ℚ) (snapshots : List ℚ) : List ℚ × Bool :=
  match snapshots.head? with
  | none => (newPrice :: snapshots, true)
  | some lastPrice =>
    if lastPrice ≠ newPrice then (newPrice :: snapshots, true)
    else (snapshots, true)

/-- A thrown JavaScript error, carrying its `message`. -/
structure JsError where
  msg : String
deriving DecidableEq, Repr

/-- JavaScript values as they occur in the strategies: `JSON.parse`
output, property accesses and the `||` defaults.  `nan` is kept separate
from finite numbers. -/
inductive JsVal where
  | jsUndefined
  | null
  | bool (b : Bool)
  | num (q : ℚ)
  | nan
  | str (s : String)
  | arr (elems : List JsVal)
  | obj (fields : List (String × JsVal))

/-- JavaScript truthiness. -/
def JsVal.truthy : JsVal → Bool
  | .jsUndefined | .null | .nan => false
  | .bool b => b
  | .num q => decide (q ≠ 0)
  | .str s => decide (s ≠ "")
  | .arr _ | .obj _ => true

/-- `a || b`. -/
def jsOr (a b : JsVal) : JsVal := if a.truthy then a else b

/-- Property access `v.k` — throws a `TypeError` on `null`/`undefined`,
yields `undefined` on objects without the key and on primitives. -/
def JsVal.getField : JsVal → String → Except JsError JsVal
  | .jsUndefined, k =>
    .error ⟨"Cannot read properties of undefined (reading '" ++ k ++ "')"⟩
  | .null, k =>
    .error ⟨"Cannot read properties of null (reading '" ++ k ++ "')"⟩
  | .obj fields, k => .ok ((fields.lookup k).getD .jsUndefined)
  | _, _ => .ok .jsUndefined

/-- Optional chaining `v?.k`. -/
def JsVal.getFieldOpt : JsVal → String → JsVal
  | .jsUndefined, _ => .jsUndefined
  | .null, _ => .jsUndefined
  | .obj fields, k => (fields.lookup k).getD .jsUndefined
  | _, _ => .jsUndefined

/-- Optional indexing `v?.[i]`. -/
def JsVal.getIndexOpt : JsVal → Nat → JsVal
  | .arr es, i => es.getD i .jsUndefined
  | _, _ => .jsUndefined

/-- `interface TrackingResult` from `scripts/tracking/types.ts`.
`price`, `currency`, `error` are the optional fields; a `none` price
covers both an absent field and JavaScript `NaN` (both falsy).  The
`currency` slot carries whatever JavaScript value the strategy put there
(`jsUndefined` when absent). -/
structure TrackingResult where
  productId : String
  success : Bool
  price : Option ℚ
  currency : JsVal
  error : Option String
  strategyUsed : String

/-- JavaScript truthiness of the optional `price` field: `undefined`,
`NaN` and `0` are falsy. -/
def priceTruthy : Option ℚ → Bool
  | none => false
  | some q => decide (q ≠ 0)

/-- The per-result database step of the batch callback in `trackPrices`
(`track-prices.ts`): `handleDatabaseUpdate` — and with it
`updateLastTracked` — runs only under `result.success && result.price`;
otherwise the store and the last-tracked timestamp are untouched.  The
Boolean component reports whether `updateLastTracked` was invoked. -/
def processTrackingResult (result : TrackingResult) (snapshots : List ℚ) :
    List ℚ × Bool :=
  if result.success && priceTruthy result.price then
    match result.price with
    | some p => handleDatabaseUpdate p snapshots
    | none => (snapshots, false)
  else (snapshots, false)

/-- C4: the recorder inserts a new price observation iff no prior
observation exists or the newly read price differs from the most recent
stored price; in particular running the recorder twice in a row with an
unchanged price is idempotent, so when the first run inserts, the two
runs together insert exactly one observation, not two. -/
theorem handleDatabaseUpdate_insert_iff :
    (∀ (price : ℚ) (snapshots : List ℚ),
      ((handleDatabaseUpdate price snapshots).1 = price :: snapshots ↔
        (snapshots.head? = none ∨ snapshots.head? ≠ some price)) ∧
      ((handleDatabaseUpdate price snapshots).1 = snapshots ↔
        snapshots.head? = some price) ∧
      (handleDatabaseUpdate price (handleDatabaseUpdate price snapshots).1).1 =
        (handleDatabaseUpdate price snapshots).1) ∧
    (∀ (price : ℚ) (snapshots : List ℚ), snapshots.head? ≠ some price →
      (handleDatabaseUpdate price (handleDatabaseUpdate price snapshots).1).1.length =
        snapshots.length + 1) := by
  have key : ∀ (price : ℚ) (snapshots : List ℚ),
      (handleDatabaseUpdate price snapshots).1 =
        if snapshots.head? = some price then snapshots else price :: snapshots := by
    intro price snapshots
    cases snapshots with
    | nil => simp [handleDatabaseUpdate]
    | cons a l =>
      by_cases h : a = price <;> simp [handleDatabaseUpdate, h]
  constructor
  · intro price snapshots
    refine ⟨?_, ?_, ?_⟩
    · rw [key]
      by_cases h : snapshots.head? = some price
      · rw [if_pos h]
        constructor
        · intro he
          exact absurd (congrArg List.length he) (by simp)
        · intro hc
          rcases hc with hc | hc
          · simp [hc] at h
          · exact absurd h hc
      · simp [h]
    · rw [key]
      by_cases h : snapshots.head? = some price
      · simp [h]
      · rw [if_neg h]
        constructor
        · intro he
          exact absurd (congrArg List.length he) (by simp)
        · intro hc
          exact absurd hc h
    · simp only [key]
      by_cases h : snapshots.head? = some price <;> simp [h]
  · intro price snapshots h
    simp only [key]
    simp [h]

/-- Witness for `handleDatabaseUpdate_insert_iff`: starting from an
empty store, recording price 100 twice leaves exactly one observation. -/
theorem handleDatabaseUpdate_insert_iff_witness :
    (handleDatabaseUpdate 100 (handleDatabaseUpdate 100 ([] : List ℚ)).1).1.length =
      ([] : List ℚ).length + 1 :=
  handleDatabaseUpdate_insert_iff.2 100 [] (by simp)

lemma handleDatabaseUpdate_touches (price : ℚ) (snapshots : List ℚ) :
    (handleDatabaseUpdate price snapshots).2 = true := by
  unfold handleDatabaseUpdate
  cases snapshots.head? with
  | none => rfl
  | some a => by_cases h : a = price <;> simp [h]

/-- C5 (as stated) is false: after a failing tracking attempt the
product's last-tracked timestamp is NOT updated.  Concretely, a result
with `success = false` (e.g. the `'Price not found'` outcome) leaves the
store untouched and never calls `updateLastTracked`. -/
theorem processTrackingResult_failure_skips_touch :
    processTrackingResult
      ⟨"p1", false, none, .jsUndefined, some "Price not found", "HTTP_FAST"⟩ [5] =
      ([5], false) := by
  rfl

/-- C5 amended: the last-tracked timestamp is updated iff the attempt
succeeded with a truthy price; failing attempts (extraction miss,
bot-detection redirect, navigation error) and zero-price results leave
`last_tracked_at` unchanged, while every successful attempt — price
changed or not — updates it. -/
theorem processTrackingResult_touch_iff (result : TrackingResult)
    (snapshots : List ℚ) :
    (processTrackingResult result snapshots).2 = true ↔
      (result.success = true ∧ priceTruthy result.price = true) := by
  unfold processTrackingResult
  rcases hp : result.price with _ | p
  · simp [priceTruthy, hp]
  · by_cases hs : result.success <;>
      by_cases hz : p = 0 <;>
        simp [priceTruthy, hp, hs, hz, handleDatabaseUpdate_touches]


/-! ## URL normalization (`scripts/utils/db.ts`)

`normalizeUrl` is built on the platform's WHATWG `URL` class.  We model
the `URL` behaviour the code relies on for hierarchical
`scheme://host/path?query#fragment` URLs: parsing into components,
`searchParams` as an ordered key/value list (with the update steps run by
`searchParams.delete`, which drop an empty query), assignment of `search`
and `hash` to the empty string (which nulls them), and serialization.
Canonicalizations that are themselves idempotent and independent of the
stripping logic (percent-encoding, host lowercasing, default-port
removal, dot-segment collapse) are not modelled; a string the model
cannot parse takes the same `catch { return url }` path the code gives
unparsable URLs. -/

/-- Split a character list at the first occurrence of `c`; `none` when
`c` does not occur. -/
def splitFirst (c : Char) : List Char → Option (List Char × List Char)
  | [] => none
  | x :: xs =>
    if x = c then some ([], xs)
    else match splitFirst c xs with
      | none => none
      | some (a, b) => some (x :: a, b)

/-- Longest prefix of characters not satisfying `p`, with the remainder. -/
def takeUntil (p : Char → Bool) : List Char → List Char × List Char
  | [] => ([], [])
  | x :: xs =>
    if p x then ([], x :: xs)
    else
      let r := takeUntil p xs
      (x :: r.1, r.2)

/-- Split on every occurrence of `c` (like `String.prototype.split`). -/
def splitAll (c : Char) : List Char → List (List Char)
  | [] => [[]]
  | x :: xs =>
    let r := splitAll c xs
    if x = c then [] :: r
    else match r with
      | [] => [[x]]
      | h :: t => (x :: h) :: t

lemma splitFirst_not_mem {c : Char} {l : List Char} (h : c ∉ l) :
    splitFirst c l = none := by
  induction l with
  | nil => rfl
  | cons x xs ih =>
    simp only [List.mem_cons, not_or] at h
    simp only [splitFirst, if_neg (Ne.symm h.1), ih h.2]

lemma splitFirst_append_sep {c : Char} {a b : List Char} (ha : c ∉ a) :
    splitFirst c (a ++ c :: b) = some (a, b) := by
  induction a with
  | nil => simp [splitFirst]
  | cons x xs ih =>
    simp only [List.mem_cons, not_or] at ha
    simp only [List.cons_append, splitFirst, List.append_eq, if_neg (Ne.symm ha.1)]
    rw [ih ha.2]

lemma splitFirst_eq_some {c : Char} : ∀ {l a b : List Char},
    splitFirst c l = some (a, b) → l = a ++ c :: b ∧ c ∉ a := by
  intro l
  induction l with
  | nil => intro a b h; simp [splitFirst] at h
  | cons x xs ih =>
    intro a b h
    simp only [splitFirst] at h
    by_cases hx : x = c
    · rw [if_pos hx] at h
      obtain ⟨rfl, rfl⟩ := Prod.mk.injEq .. ▸ Option.some.injEq .. ▸ h
      simp [hx]
    · rw [if_neg hx] at h
      cases hs : splitFirst c xs with
      | none => rw [hs] at h; cases h
      | some ab =>
        obtain ⟨a', b'⟩ := ab
        rw [hs] at h
        obtain ⟨he, rfl⟩ : x :: a' = a ∧ b' = b := by
          constructor <;> { cases h; rfl }
        obtain ⟨h1, h2⟩ := ih hs
        subst he
        refine ⟨by simp [h1], ?_⟩
        simp only [List.mem_cons, not_or]
        exact ⟨fun hc => hx hc.symm, h2⟩

lemma takeUntil_no {p : Char → Bool} {l : List Char} (h : ∀ x ∈ l, ¬ p x) :
    takeUntil p l = (l, []) := by
  induction l with
  | nil => rfl
  | cons x xs ih =>
    simp only [takeUntil, if_neg (h x (by simp)), ih (fun y hy => h y (by simp [hy]))]

lemma takeUntil_append_hit {p : Char → Bool} {a : List Char} {c : Char}
    {b : List Char} (ha : ∀ x ∈ a, ¬ p x) (hc : p c) :
    takeUntil p (a ++ c :: b) = (a, c :: b) := by
  induction a with
  | nil => simp [takeUntil, hc]
  | cons x xs ih =>
    simp only [List.cons_append, takeUntil, List.append_eq, if_neg (ha x (by simp))]
    rw [ih (fun y hy => ha y (by simp [hy]))]

lemma takeUntil_spec {p : Char → Bool} : ∀ (l : List Char),
    l = (takeUntil p l).1 ++ (takeUntil p l).2 ∧
    (∀ x ∈ (takeUntil p l).1, ¬ p x) ∧
    (∀ c cs, (takeUntil p l).2 = c :: cs → p c) := by
  intro l
  induction l with
  | nil => simp [takeUntil]
  | cons x xs ih =>
    by_cases hx : p x
    · simp [takeUntil, hx]
    · simp only [takeUntil, if_neg hx]
      refine ⟨by simpa using ih.1, ?_, by simpa using ih.2.2⟩
      intro y hy
      rcases List.mem_cons.mp hy with rfl | hy
      · exact hx
      · exact ih.2.1 y hy

lemma splitAll_ne_nil {c : Char} : ∀ {l : List Char}, splitAll c l ≠ [] := by
  intro l
  induction l with
  | nil => simp [splitAll]
  | cons x xs ih =>
    simp only [splitAll]
    by_cases hx : x = c
    · simp [hx]
    · rw [if_neg hx]
      cases hs : splitAll c xs with
      | nil => simp
      | cons h t => simp

lemma splitAll_not_mem {c : Char} {l : List Char} (h : c ∉ l) :
    splitAll c l = [l] := by
  induction l with
  | nil => rfl
  | cons x xs ih =>
    simp only [List.mem_cons, not_or] at h
    simp only [splitAll, if_neg (Ne.symm h.1), ih h.2]

lemma splitAll_append_sep {c : Char} {a b : List Char} (ha : c ∉ a) :
    splitAll c (a ++ c :: b) = a :: splitAll c b := by
  induction a with
  | nil => simp [splitAll]
  | cons x xs ih =>
    simp only [List.mem_cons, not_or] at ha
    simp only [List.cons_append, splitAll, List.append_eq, if_neg (Ne.symm ha.1)]
    rw [ih ha.2]

/-- Characters the WHATWG URL grammar allows in a scheme after the
leading letter. -/
def isSchemeChar (c : Char) : Bool :=
  c.isAlpha || c.isDigit || c = '+' || c = '-' || c = '.'

/-- The components of a parsed hierarchical URL.  `query = none` models a
null query (no `?`), `query = some pairs` the ordered `searchParams`
key/value list; likewise for `fragment`. -/
structure UrlModel where
  scheme : List Char
  host : List Char
  path : List Char
  query : Option (List (List Char × List Char))
  fragment : Option (List Char)
deriving DecidableEq, Repr

/-- One `k=v` piece of a query string, split at the first `=` (a piece
without `=` is a key with empty value, as in `URLSearchParams`). -/
def parseQueryPair (piece : List Char) : List Char × List Char :=
  match splitFirst '=' piece with
  | none => (piece, [])
  | some (k, v) => (k, v)

/-- `URLSearchParams` parsing: split on `&`, drop empty pieces, split
each piece at its first `=`. -/
def parseQuery (q : List Char) : List (List Char × List Char) :=
  (splitAll '&' q).filterMap fun piece =>
    if piece = [] then none else some (parseQueryPair piece)

/-- The `//` that must follow `scheme:` in a hierarchical URL. -/
def stripSlashSlash : List Char → Option (List Char)
  | a :: b :: r => if a = '/' ∧ b = '/' then some r else none
  | _ => none

/-- Scheme/authority stage of the URL parser: `b` is the input up to the
first `?`/`#`, `q` and `frag` the already-split raw query and fragment.
The scheme sits before the first `:` and must be a letter followed by
scheme characters; then `//`, then the host up to the first `/`. -/
def parseSchemeHost (b : List Char) (q : Option (List Char))
    (frag : Option (List Char)) : Option UrlModel :=
  match splitFirst ':' b with
  | none => none
  | some (scheme, rest) =>
    match scheme with
    | [] => none
    | c :: _ =>
      if c.isAlpha && scheme.all isSchemeChar then
        match stripSlashSlash rest with
        | none => none
        | some hostAndPath =>
          match takeUntil (· = '/') hostAndPath with
          | (host, path) =>
            if host = [] then none
            else some ⟨scheme, host, path, q.map parseQuery, frag⟩
      else none

/-- Query stage: split the pre-fragment input at the first `?`. -/
def parseAfterFrag (b : List Char) (frag : Option (List Char)) : Option UrlModel :=
  match splitFirst '?' b with
  | none => parseSchemeHost b none frag
  | some (b2, q) => parseSchemeHost b2 (some q) frag

/-- Parse a hierarchical `scheme://host…` URL into its components:
fragment after the first `#`, query after the first `?` before that,
scheme before the first `:` (validated), then `//`, then host up to the
first `/`.  `none` models `new URL(url)` throwing. -/
def parseUrlChars (s : List Char) : Option UrlModel :=
  match splitFirst '#' s with
  | none => parseAfterFrag s none
  | some (b, f) => parseAfterFrag b (some f)

/-- `URLSearchParams` serialization: `k=v` pieces joined with `&`. -/
def serializeQuery : List (List Char × List Char) → List Char
  | [] => []
  | [p] => p.1 ++ '=' :: p.2
  | p :: ps => p.1 ++ '=' :: p.2 ++ '&' :: serializeQuery ps

/-- The serialized query component: nothing for a null query, `?` plus
the serialized pairs otherwise. -/
def queryChunk : Option (List (List Char × List Char)) → List Char
  | none => []
  | some ps => '?' :: serializeQuery ps

/-- The serialized fragment component. -/
def fragChunk : Option (List Char) → List Char
  | none => []
  | some f => '#' :: f

/-- `URL` serialization of the model. -/
def serializeUrl (m : UrlModel) : List Char :=
  m.scheme ++ ':' :: '/' :: '/' ::
    (m.host ++ m.path ++ queryChunk m.query ++ fragChunk m.fragment)

/-- The `paramsToRemove` denylist from `normalizeUrl` in `db.ts`. -/
def paramsToRemove : List (List Char) :=
  ["utm_source", "utm_medium", "utm_campaign", "ref", "tag",
   "tracking_id", "wid", "sid", "polycard_client", "searchVariation",
   "search_layout", "position", "type", "reco_item_pos", "reco_backend",
   "reco_backend_type", "reco_client", "reco_id", "reco_model",
   "c_id", "c_uid", "da_id", "da_position", "id_origin",
   "da_sort_algorithm"].map String.toList

/-- A query pair survives the `forEach … delete` loop iff its key is not
on the denylist. -/
def keepParam (p : List Char × List Char) : Bool :=
  !(paramsToRemove.contains p.1)

/-- The component-level effect of `normalizeUrl`'s body on the query:
for a hostname containing `mercadolibre`, `urlObj.search = ''` nulls the
query; for other hosts the `paramsToRemove.forEach(p =>
searchParams.delete(p))` loop removes the denylisted keys, the `URL`
update steps re-serializing the remaining pairs and nulling an emptied
query. -/
def normQuery (host : List Char)
    (query : Option (List (List Char × List Char))) :
    Option (List (List Char × List Char)) :=
  if decide (("mercadolibre".toList) <:+: host) then none
  else
    match query with
    | none => none
    | some ps =>
      if ps.filter keepParam = [] then none
      else some (ps.filter keepParam)

def normModel (m : UrlModel) : UrlModel :=
  { m with query := normQuery m.host m.query, fragment := none }

/-- `normalizeUrl` from `db.ts`: parse, strip, serialize — and on a
parse failure (`catch`) return the input unchanged. -/
def normalizeUrl (url : String) : String :=
  match parseUrlChars url.toList with
  | none => url
  | some m => ⟨serializeUrl (normModel m)⟩

/-- Stand-in for Node's `crypto.createHash('sha256')…digest('hex')`: a
fixed deterministic digest of the input string.  Every claim proved about
`generateProductHash` uses only that the digest is a function of its
input, never any property of SHA-256 itself. -/
def sha256Hex (input : String) : String :=
  ⟨Nat.toDigits 16 (input.toList.foldl (fun a c => (a * 65599 + c.toNat) % 2 ^ 256) 0)⟩

/-- `generateProductHash` from `db.ts`. -/
def generateProductHash (merchant : String) (normalizedUrl : String) : String :=
  sha256Hex (merchant ++ ":" ++ normalizedUrl)


/-- The invariants every successfully parsed URL satisfies — exactly
what is needed for serialization to parse back to the same model. -/
structure WfUrl (m : UrlModel) : Prop where
  scheme_shape : ∃ c cs, m.scheme = c :: cs ∧ c.isAlpha ∧ m.scheme.all isSchemeChar
  host_ne : m.host ≠ []
  host_chars : ∀ c ∈ m.host, c ≠ '/' ∧ c ≠ '?' ∧ c ≠ '#'
  path_chars : ∀ c ∈ m.path, c ≠ '?' ∧ c ≠ '#'
  path_shape : m.path = [] ∨ ∃ cs, m.path = '/' :: cs
  query_wf : ∀ ps, m.query = some ps → ∀ p ∈ ps,
    ('&' ∉ p.1 ∧ '=' ∉ p.1 ∧ '#' ∉ p.1) ∧ ('&' ∉ p.2 ∧ '#' ∉ p.2)

lemma isSchemeChar_ne {c : Char} (h : isSchemeChar c = true) :
    c ≠ ':' ∧ c ≠ '/' ∧ c ≠ '?' ∧ c ≠ '#' := by
  refine ⟨?_, ?_, ?_, ?_⟩ <;> (rintro rfl; revert h; decide)

lemma splitFirst_none_not_mem {c : Char} : ∀ {l : List Char},
    splitFirst c l = none → c ∉ l := by
  intro l
  induction l with
  | nil => simp
  | cons x xs ih =>
    intro h
    simp only [splitFirst] at h
    by_cases hx : x = c
    · rw [if_pos hx] at h; cases h
    · rw [if_neg hx] at h
      cases hs : splitFirst c xs with
      | none =>
        simp only [List.mem_cons, not_or]
        exact ⟨fun hc => hx hc.symm, ih hs⟩
      | some ab => rw [hs] at h; cases h

lemma stripSlashSlash_eq_some : ∀ {r hap : List Char},
    stripSlashSlash r = some hap → r = '/' :: '/' :: hap := by
  intro r hap h
  match r with
  | [] => cases h
  | [a] => cases h
  | a :: b :: t =>
    simp only [stripSlashSlash] at h
    by_cases hab : a = '/' ∧ b = '/'
    · rw [if_pos hab] at h
      obtain ⟨rfl, rfl⟩ := hab
      simp only [Option.some.injEq] at h
      rw [h]
    · rw [if_neg hab] at h; cases h

lemma mem_splitAll {c : Char} : ∀ {l : List Char} {pc : List Char},
    pc ∈ splitAll c l → c ∉ pc ∧ ∀ x ∈ pc, x ∈ l := by
  intro l
  induction l with
  | nil =>
    intro pc h
    simp only [splitAll, List.mem_singleton] at h
    subst h
    simp
  | cons y ys ih =>
    intro pc h
    simp only [splitAll] at h
    by_cases hy : y = c
    · rw [if_pos hy] at h
      rcases List.mem_cons.mp h with rfl | h
      · simp
      · obtain ⟨h1, h2⟩ := ih h
        exact ⟨h1, fun x hx => by simp [h2 x hx]⟩
    · rw [if_neg hy] at h
      cases hs : splitAll c ys with
      | nil => exact absurd hs splitAll_ne_nil
      | cons hd tl =>
        rw [hs] at h
        rcases List.mem_cons.mp h with rfl | h
        · have hmem : hd ∈ splitAll c ys := by rw [hs]; simp
          obtain ⟨h1, h2⟩ := ih hmem
          constructor
          · simp only [List.mem_cons, not_or]
            exact ⟨fun hc => hy hc.symm, h1⟩
          · intro x hx
            rcases List.mem_cons.mp hx with rfl | hx
            · simp
            · simp [h2 x hx]
        · have hmem : pc ∈ splitAll c ys := by rw [hs]; simp [h]
          obtain ⟨h1, h2⟩ := ih hmem
          exact ⟨h1, fun x hx => by simp [h2 x hx]⟩

/-- Pairs produced by `parseQuery` contain no separators (and no `#`
when the raw query has none). -/
lemma parseQuery_wf {q : List Char} (hq : '#' ∉ q) :
    ∀ p ∈ parseQuery q,
      ('&' ∉ p.1 ∧ '=' ∉ p.1 ∧ '#' ∉ p.1) ∧ ('&' ∉ p.2 ∧ '#' ∉ p.2) := by
  intro p hp
  simp only [parseQuery, List.mem_filterMap] at hp
  obtain ⟨piece, hpiece, hval⟩ := hp
  by_cases hnil : piece = []
  · simp [hnil] at hval
  · rw [if_neg hnil] at hval
    obtain ⟨hamp, hsub⟩ := mem_splitAll hpiece
    have hhash : '#' ∉ piece := fun hx => hq (hsub _ hx)
    simp only [Option.some.injEq] at hval
    subst hval
    unfold parseQueryPair
    cases hs : splitFirst '=' piece with
    | none =>
      have heq := splitFirst_none_not_mem hs
      exact ⟨⟨hamp, heq, hhash⟩, by simp, by simp⟩
    | some kv =>
      obtain ⟨k, v⟩ := kv
      obtain ⟨hpe, hkne⟩ := splitFirst_eq_some hs
      subst hpe
      simp only [List.mem_append, List.mem_cons, not_or] at hamp hhash
      exact ⟨⟨hamp.1, hkne, hhash.1⟩, ⟨hamp.2.2, hhash.2.2⟩⟩

lemma wf_of_parseSchemeHost {b2 : List Char} {q : Option (List Char)}
    {frag : Option (List Char)} {m : UrlModel}
    (hb2h : '#' ∉ b2) (hb2q : '?' ∉ b2)
    (hqh : ∀ qs, q = some qs → '#' ∉ qs)
    (h : parseSchemeHost b2 q frag = some m) : WfUrl m := by
  unfold parseSchemeHost at h
  split at h
  · cases h
  rename_i scheme rest hs
  split at h
  · cases h
  rename_i c cs
  split at h
  case isFalse => cases h
  rename_i hv
  simp only [Bool.and_eq_true] at hv
  split at h
  · cases h
  rename_i hostAndPath hss
  split at h
  rename_i host path htu
  split at h
  · cases h
  rename_i hhost
  simp only [Option.some.injEq] at h
  subst h
  obtain ⟨hb2eq, _⟩ := splitFirst_eq_some hs
  have hrest := stripSlashSlash_eq_some hss
  have hspec := takeUntil_spec (p := (· = '/')) hostAndPath
  have hsp1 : hostAndPath = host ++ path := by
    have := hspec.1
    rw [htu] at this
    simpa using this
  have hsp2 : ∀ x ∈ host, ¬ (decide (x = '/') = true) := by
    have := hspec.2.1
    rw [htu] at this
    simpa using this
  have hsp3 : ∀ (c0 : Char) (cs0 : List Char), path = c0 :: cs0 → c0 = '/' := by
    have := hspec.2.2
    rw [htu] at this
    simpa using this
  have hhp : ∀ x ∈ host ++ path, x ∈ b2 := by
    intro x hx
    have hxh : x ∈ hostAndPath := by rw [hsp1]; exact hx
    rw [hb2eq, hrest]
    simp [hxh]
  refine ⟨⟨c, cs, rfl, hv.1, hv.2⟩, hhost, ?_, ?_, ?_, ?_⟩
  · intro ch hch
    have hmem : ch ∈ b2 := hhp ch (by simp [hch])
    refine ⟨?_, fun hc => hb2q (hc ▸ hmem), fun hc => hb2h (hc ▸ hmem)⟩
    intro hsl
    exact hsp2 ch hch (by simp [hsl])
  · intro ch hch
    have hmem : ch ∈ b2 := hhp ch (by simp [hch])
    exact ⟨fun hc => hb2q (hc ▸ hmem), fun hc => hb2h (hc ▸ hmem)⟩
  · cases hpath : path with
    | nil => exact Or.inl rfl
    | cons p0 ptl =>
      right
      exact ⟨ptl, by rw [hsp3 p0 ptl hpath]⟩
  · intro ps hps p hp
    simp only [Option.map_eq_some'] at hps
    obtain ⟨qs, hq1, hq2⟩ := hps
    subst hq2
    exact parseQuery_wf (hqh qs hq1) p hp

/-- Every model `parseUrlChars` returns is wellformed. -/
theorem wf_of_parse {s : List Char} {m : UrlModel}
    (h : parseUrlChars s = some m) : WfUrl m := by
  unfold parseUrlChars at h
  have main : ∀ (b : List Char) (frag : Option (List Char)), '#' ∉ b →
      parseAfterFrag b frag = some m → WfUrl m := by
    intro b frag hbh h
    unfold parseAfterFrag at h
    cases hq : splitFirst '?' b with
    | none =>
      rw [hq] at h
      exact wf_of_parseSchemeHost hbh (splitFirst_none_not_mem hq) (by simp) h
    | some bq =>
      obtain ⟨b2, qs⟩ := bq
      rw [hq] at h
      obtain ⟨hbeq, hqm⟩ := splitFirst_eq_some hq
      refine wf_of_parseSchemeHost ?_ hqm ?_ h
      · intro hc
        exact hbh (by rw [hbeq]; simp [hc])
      · intro qs' hqs'
        simp only [Option.some.injEq] at hqs'
        subst hqs'
        intro hc
        exact hbh (by rw [hbeq]; simp [hc])
  cases hf : splitFirst '#' s with
  | none =>
    rw [hf] at h
    exact main s none (splitFirst_none_not_mem hf) h
  | some bf =>
    obtain ⟨b, f⟩ := bf
    rw [hf] at h
    exact main b (some f) (splitFirst_eq_some hf).2 h

lemma mem_serializeQuery : ∀ {ps : List (List Char × List Char)} {x : Char},
    x ∈ serializeQuery ps → x = '=' ∨ x = '&' ∨ ∃ p ∈ ps, x ∈ p.1 ∨ x ∈ p.2 := by
  intro ps
  induction ps with
  | nil => intro x h; simp [serializeQuery] at h
  | cons p ps ih =>
    intro x h
    cases ps with
    | nil =>
      simp only [serializeQuery, List.mem_append, List.mem_cons] at h
      rcases h with h | h | h
      · exact Or.inr (Or.inr ⟨p, by simp, Or.inl h⟩)
      · exact Or.inl h
      · exact Or.inr (Or.inr ⟨p, by simp, Or.inr h⟩)
    | cons p2 ps2 =>
      have hser : serializeQuery (p :: p2 :: ps2) =
          (p.1 ++ '=' :: p.2) ++ '&' :: serializeQuery (p2 :: ps2) := by
        simp [serializeQuery, List.append_assoc]
      rw [hser] at h
      rcases List.mem_append.mp h with h | h
      · rcases List.mem_append.mp h with h | h
        · exact Or.inr (Or.inr ⟨p, by simp, Or.inl h⟩)
        · rcases List.mem_cons.mp h with rfl | h
          · exact Or.inl rfl
          · exact Or.inr (Or.inr ⟨p, by simp, Or.inr h⟩)
      · rcases List.mem_cons.mp h with rfl | h
        · exact Or.inr (Or.inl rfl)
        · rcases ih h with h | h | ⟨p', hp', hx⟩
          · exact Or.inl h
          · exact Or.inr (Or.inl h)
          · exact Or.inr (Or.inr ⟨p', by simp [hp'], hx⟩)

/-- `URLSearchParams` serialization is a section of its parser on
separator-free pairs. -/
lemma parseQuery_serializeQuery : ∀ (ps : List (List Char × List Char)),
    (∀ p ∈ ps, '&' ∉ p.1 ∧ '=' ∉ p.1 ∧ '&' ∉ p.2) →
    parseQuery (serializeQuery ps) = ps := by
  intro ps
  induction ps with
  | nil => intro _; rfl
  | cons p ps ih =>
    intro h
    obtain ⟨hk_amp, hk_eq, hv_amp⟩ := h p (by simp)
    have hamp : '&' ∉ p.1 ++ '=' :: p.2 := by
      simp only [List.mem_append, List.mem_cons, not_or]
      exact ⟨hk_amp, by simp, hv_amp⟩
    have hhead : (if (p.1 ++ '=' :: p.2) = ([] : List Char) then none
        else some (parseQueryPair (p.1 ++ '=' :: p.2))) = some p := by
      rw [if_neg (by simp)]
      unfold parseQueryPair
      rw [splitFirst_append_sep hk_eq]
    cases ps with
    | nil =>
      have hser : serializeQuery [p] = p.1 ++ '=' :: p.2 := rfl
      rw [hser, parseQuery, splitAll_not_mem hamp]
      simp only [List.filterMap_cons, List.filterMap_nil]
      rw [hhead]
    | cons p2 ps2 =>
      have hser : serializeQuery (p :: p2 :: ps2) =
          (p.1 ++ '=' :: p.2) ++ '&' :: serializeQuery (p2 :: ps2) := by
        simp [serializeQuery, List.append_assoc]
      rw [hser, parseQuery, splitAll_append_sep hamp]
      simp only [List.filterMap_cons]
      rw [hhead]
      have htail := ih (fun q hq => h q (by simp [hq]))
      rw [parseQuery] at htail
      rw [htail]

lemma scheme_not_mem {scheme : List Char} (hall : scheme.all isSchemeChar = true) :
    ':' ∉ scheme ∧ '/' ∉ scheme ∧ '?' ∉ scheme ∧ '#' ∉ scheme := by
  refine ⟨?_, ?_, ?_, ?_⟩ <;> intro hm <;>
    exact absurd (List.all_eq_true.mp hall _ hm) (by decide)

lemma parseSchemeHost_of_parts {scheme host path : List Char}
    {q : Option (List Char)} {frag : Option (List Char)}
    (hsch : ∃ c cs, scheme = c :: cs ∧ c.isAlpha ∧ scheme.all isSchemeChar)
    (hhost_ne : host ≠ []) (hhost : ∀ ch ∈ host, ch ≠ '/')
    (hpath : path = [] ∨ ∃ cs, path = '/' :: cs) :
    parseSchemeHost (scheme ++ ':' :: '/' :: '/' :: (host ++ path)) q frag =
      some ⟨scheme, host, path, q.map parseQuery, frag⟩ := by
  obtain ⟨c, cs, rfl, hca, hall⟩ := hsch
  obtain ⟨hns, _, _, _⟩ := scheme_not_mem hall
  unfold parseSchemeHost
  rw [splitFirst_append_sep hns]
  have hcond : (c.isAlpha && (c :: cs).all isSchemeChar) = true := by
    simp [hca, hall]
  have hss : stripSlashSlash ('/' :: '/' :: (host ++ path)) = some (host ++ path) := by
    simp [stripSlashSlash]
  have htu : takeUntil (· = '/') (host ++ path) = (host, path) := by
    rcases hpath with rfl | ⟨cs2, rfl⟩
    · rw [List.append_nil]
      exact takeUntil_no (fun x hx => by simpa using hhost x hx)
    · exact takeUntil_append_hit (fun x hx => by simpa using hhost x hx) (by simp)
  simp [hcond, hss, htu, hhost_ne]
  have hall' := List.all_eq_true.mp hall
  exact ⟨hca, hall' c (by simp), fun x hx => hall' x (by simp [hx])⟩

lemma parseAfterFrag_of_parts {scheme host path : List Char}
    {query : Option (List (List Char × List Char))} {frag : Option (List Char)}
    (hsch : ∃ c cs, scheme = c :: cs ∧ c.isAlpha ∧ scheme.all isSchemeChar)
    (hhost_ne : host ≠ []) (hhost : ∀ ch ∈ host, ch ≠ '/' ∧ ch ≠ '?')
    (hpathq : ∀ ch ∈ path, ch ≠ '?')
    (hpath : path = [] ∨ ∃ cs, path = '/' :: cs)
    (hquery : ∀ ps, query = some ps → ∀ p ∈ ps,
      ('&' ∉ p.1 ∧ '=' ∉ p.1) ∧ '&' ∉ p.2) :
    parseAfterFrag
      (scheme ++ ':' :: '/' :: '/' :: (host ++ path ++ queryChunk query)) frag =
      some ⟨scheme, host, path, query, frag⟩ := by
  obtain ⟨c, cs, hc, hca, hall⟩ := hsch
  obtain ⟨_, _, hnsq, _⟩ := scheme_not_mem hall
  have hnoq0 : '?' ∉ scheme ++ ':' :: '/' :: '/' :: (host ++ path) := by
    simp only [List.mem_append, List.mem_cons, not_or]
    refine ⟨hnsq, by simp, by simp, by simp, ?_⟩
    exact ⟨fun hm => (hhost _ hm).2 rfl, fun hm => hpathq _ hm rfl⟩
  unfold parseAfterFrag
  cases query with
  | none =>
    rw [show queryChunk none = ([] : List Char) from rfl, List.append_nil]
    rw [splitFirst_not_mem hnoq0]
    show parseSchemeHost
      (scheme ++ ':' :: '/' :: '/' :: (host ++ path)) none frag = _
    rw [parseSchemeHost_of_parts ⟨c, cs, hc, hca, hall⟩ hhost_ne
      (fun ch hm => (hhost ch hm).1) hpath]
    rfl
  | some ps =>
    rw [show queryChunk (some ps) = '?' :: serializeQuery ps from rfl]
    rw [show scheme ++ ':' :: '/' :: '/' ::
        (host ++ path ++ ('?' :: serializeQuery ps)) =
        (scheme ++ ':' :: '/' :: '/' :: (host ++ path)) ++ '?' :: serializeQuery ps
      from by simp [List.append_assoc]]
    rw [splitFirst_append_sep hnoq0]
    show parseSchemeHost (scheme ++ ':' :: '/' :: '/' :: (host ++ path))
      (some (serializeQuery ps)) frag = _
    rw [parseSchemeHost_of_parts ⟨c, cs, hc, hca, hall⟩ hhost_ne
      (fun ch hm => (hhost ch hm).1) hpath]
    have hps := hquery ps rfl
    rw [show (some (serializeQuery ps)).map parseQuery =
        some (parseQuery (serializeQuery ps)) from rfl]
    rw [parseQuery_serializeQuery ps
      (fun p hp => ⟨(hps p hp).1.1, (hps p hp).1.2, (hps p hp).2⟩)]

/-- Serializing a wellformed model and parsing it back is the identity. -/
theorem parse_serializeUrl {m : UrlModel} (h : WfUrl m) :
    parseUrlChars (serializeUrl m) = some m := by
  obtain ⟨scheme, host, path, query, fragment⟩ := m
  obtain ⟨c, cs, hc, hca, hall⟩ := h.scheme_shape
  obtain ⟨_, _, _, hnsh⟩ := scheme_not_mem hall
  have hhostc := h.host_chars
  have hpathc := h.path_chars
  have hqwf := h.query_wf
  simp only at hhostc hpathc hqwf
  have hqh : '#' ∉ queryChunk query := by
    cases query with
    | none => simp [queryChunk]
    | some ps =>
      simp only [queryChunk, List.mem_cons, not_or]
      refine ⟨by simp, ?_⟩
      intro hm
      rcases mem_serializeQuery hm with hx | hx | ⟨p, hp, hx⟩
      · cases hx
      · cases hx
      · rcases hx with hx | hx
        · exact (hqwf ps rfl p hp).1.2.2 hx
        · exact (hqwf ps rfl p hp).2.2 hx
  have hpre : '#' ∉ scheme ++ ':' :: '/' :: '/' ::
      (host ++ path ++ queryChunk query) := by
    simp only [List.mem_append, List.mem_cons, not_or]
    refine ⟨hnsh, by simp, by simp, by simp, ?_⟩
    exact ⟨⟨fun hm => (hhostc _ hm).2.2 rfl, fun hm => (hpathc _ hm).2 rfl⟩, hqh⟩
  have hafter : parseAfterFrag
      (scheme ++ ':' :: '/' :: '/' :: (host ++ path ++ queryChunk query)) fragment =
      some ⟨scheme, host, path, query, fragment⟩ :=
    parseAfterFrag_of_parts ⟨c, cs, hc, hca, hall⟩ h.host_ne
      (fun ch hm => ⟨(hhostc ch hm).1, (hhostc ch hm).2.1⟩)
      (fun ch hm => (hpathc ch hm).1) h.path_shape
      (fun ps hps p hp => ⟨⟨(hqwf ps hps p hp).1.1, (hqwf ps hps p hp).1.2.1⟩,
        (hqwf ps hps p hp).2.1⟩)
  unfold parseUrlChars serializeUrl
  simp only
  cases fragment with
  | none =>
    rw [show fragChunk none = ([] : List Char) from rfl, List.append_nil]
    rw [splitFirst_not_mem hpre]
    exact hafter
  | some f =>
    rw [show fragChunk (some f) = '#' :: f from rfl]
    rw [show scheme ++ ':' :: '/' :: '/' ::
        (host ++ path ++ queryChunk query ++ '#' :: f) =
        (scheme ++ ':' :: '/' :: '/' :: (host ++ path ++ queryChunk query)) ++
          '#' :: f from by simp [List.append_assoc]]
    rw [splitFirst_append_sep hpre]
    exact hafter

lemma normModel_eq (m : UrlModel) :
    normModel m = ⟨m.scheme, m.host, m.path, normQuery m.host m.query, none⟩ := rfl

lemma normQuery_ml {host : List Char}
    (hml : decide (("mercadolibre".toList) <:+: host) = true)
    (q : Option (List (List Char × List Char))) : normQuery host q = none := by
  unfold normQuery
  rw [if_pos hml]

lemma normQuery_not_ml_none {host : List Char}
    (hml : ¬ decide (("mercadolibre".toList) <:+: host) = true) :
    normQuery host none = none := by
  unfold normQuery
  rw [if_neg hml]

lemma normQuery_not_ml_some {host : List Char}
    (hml : ¬ decide (("mercadolibre".toList) <:+: host) = true)
    (ps : List (List Char × List Char)) :
    normQuery host (some ps) =
      if ps.filter keepParam = [] then none else some (ps.filter keepParam) := by
  unfold normQuery
  rw [if_neg hml]

lemma wf_normModel {m : UrlModel} (h : WfUrl m) : WfUrl (normModel m) := by
  refine ⟨h.scheme_shape, h.host_ne, h.host_chars, h.path_chars, h.path_shape, ?_⟩
  intro ps hps p hp
  have hq : normQuery m.host m.query = some ps := hps
  by_cases hml : decide (("mercadolibre".toList) <:+: m.host) = true
  · rw [normQuery_ml hml] at hq; cases hq
  · cases hq0 : m.query with
    | none => rw [hq0, normQuery_not_ml_none hml] at hq; cases hq
    | some ps0 =>
      rw [hq0, normQuery_not_ml_some hml] at hq
      by_cases hk : ps0.filter keepParam = []
      · rw [if_pos hk] at hq; cases hq
      · rw [if_neg hk] at hq
        simp only [Option.some.injEq] at hq
        subst hq
        exact h.query_wf ps0 hq0 p (List.mem_of_mem_filter hp)

lemma normQuery_idem (host : List Char)
    (q : Option (List (List Char × List Char))) :
    normQuery host (normQuery host q) = normQuery host q := by
  by_cases hml : decide (("mercadolibre".toList) <:+: host) = true
  · rw [normQuery_ml hml, normQuery_ml hml]
  · cases q with
    | none => rw [normQuery_not_ml_none hml, normQuery_not_ml_none hml]
    | some ps =>
      rw [normQuery_not_ml_some hml]
      have hff : (ps.filter keepParam).filter keepParam = ps.filter keepParam := by
        rw [List.filter_filter]
        congr 1
        funext p
        rw [Bool.and_self]
      by_cases hk : ps.filter keepParam = []
      · rw [if_pos hk, normQuery_not_ml_none hml]
      · rw [if_neg hk, normQuery_not_ml_some hml, hff, if_neg hk]

lemma normModel_idem (m : UrlModel) : normModel (normModel m) = normModel m := by
  rw [normModel_eq, normModel_eq]
  simp only
  rw [normQuery_idem]

/-- C7: `normalizeUrl` is idempotent — re-normalizing an already
normalized URL (whether the merchant strips all query parameters or only
the tracking denylist, and whether parsing succeeded or fell through the
`catch`) is a no-op. -/
theorem normalizeUrl_idempotent (u : String) :
    normalizeUrl (normalizeUrl u) = normalizeUrl u := by
  cases hp : parseUrlChars u.toList with
  | none =>
    have h1 : normalizeUrl u = u := by unfold normalizeUrl; rw [hp]
    rw [h1, h1]
  | some m =>
    have h1 : normalizeUrl u = ⟨serializeUrl (normModel m)⟩ := by
      unfold normalizeUrl; rw [hp]
    have hrt : parseUrlChars (String.toList ⟨serializeUrl (normModel m)⟩) =
        some (normModel m) := parse_serializeUrl (wf_normModel (wf_of_parse hp))
    rw [h1]
    unfold normalizeUrl
    rw [hrt]
    show (⟨serializeUrl (normModel (normModel m))⟩ : String) =
      ⟨serializeUrl (normModel m)⟩
    rw [normModel_idem]

/-- C10: `normalizeUrl` is total (a Lean function) and fail-open: when
its input does not parse as a URL — the model of `new URL(url)` throwing
— it returns the input string unchanged, the `catch { return url }`
path. -/
theorem normalizeUrl_fail_open (u : String)
    (h : parseUrlChars u.toList = none) : normalizeUrl u = u := by
  unfold normalizeUrl
  rw [h]

/-- Witness for `normalizeUrl_fail_open`: a string with no scheme is
returned unchanged. -/
theorem normalizeUrl_fail_open_witness : normalizeUrl "not a url" = "not a url" :=
  normalizeUrl_fail_open "not a url" (by rfl)

/-- C8: two parsable URLs that agree on scheme, host and path and whose
queries agree after the merchant-specific stripping (and may differ in
fragments) normalize identically, hence `generateProductHash` gives both
the same product hash for any merchant. -/
theorem productHash_stripped_invariant (merchant u1 u2 : String)
    (m1 m2 : UrlModel)
    (h1 : parseUrlChars u1.toList = some m1)
    (h2 : parseUrlChars u2.toList = some m2)
    (hs : m1.scheme = m2.scheme) (hh : m1.host = m2.host)
    (hp : m1.path = m2.path)
    (hq : normQuery m1.host m1.query = normQuery m2.host m2.query) :
    generateProductHash merchant (normalizeUrl u1) =
      generateProductHash merchant (normalizeUrl u2) := by
  have hm : normModel m1 = normModel m2 := by
    rw [normModel_eq, normModel_eq, hq, hs, hh, hp]
  have hn1 : normalizeUrl u1 = ⟨serializeUrl (normModel m1)⟩ := by
    unfold normalizeUrl; rw [h1]
  have hn2 : normalizeUrl u2 = ⟨serializeUrl (normModel m2)⟩ := by
    unfold normalizeUrl; rw [h2]
  rw [hn1, hn2, hm]

/-- Witness for `productHash_stripped_invariant`: the same product URL
with and without a `utm_source` tracking parameter and a fragment hashes
identically. -/
theorem productHash_stripped_invariant_witness :
    generateProductHash "exito"
        (normalizeUrl "https://www.exito.com/p/x?utm_source=mail&color=red#frag") =
      generateProductHash "exito"
        (normalizeUrl "https://www.exito.com/p/x?color=red") :=
  productHash_stripped_invariant "exito"
    "https://www.exito.com/p/x?utm_source=mail&color=red#frag"
    "https://www.exito.com/p/x?color=red" _ _ rfl rfl
    (by decide) (by decide) (by decide) (by decide)

/-! ## Fetch strategies (`scripts/tracking/strategies/`)

Network and browser operations are environment-supplied outcomes; the
control flow of `track`, the extraction cascade of
`HttpFastStrategy.extractPrice` and the JSON-LD/meta probing are
transcribed from the source.  A fetched document is abstracted to what
the two probes of `extractPrice` would find in it. -/

/-- `interface ProductToTrack` from `scripts/tracking/types.ts`. -/
structure ProductToTrack where
  id : String
  merchant : String
  original_url : String
  title : String
deriving DecidableEq, Repr

def digitsToNat (l : List Char) : Nat :=
  l.foldl (fun a c => a * 10 + (c.toNat - '0'.toNat)) 0

/-- `parseFloat` on a string: optional sign, digits, one fractional
part; `none` models `NaN` (no leading digits at all).  Exponents are not
modelled — the engine feeds this only regex captures over `[\x5cd.]` and
JSON price fields. -/
def parseFloatChars (l : List Char) : Option ℚ :=
  let l1 := l.dropWhile (·.isWhitespace)
  let sl : ℚ × List Char :=
    match l1 with
    | '-' :: t => (-1, t)
    | '+' :: t => (1, t)
    | _ => (1, l1)
  let intPart := sl.2.takeWhile (·.isDigit)
  let rest := sl.2.dropWhile (·.isDigit)
  let fracPart : List Char :=
    match rest with
    | '.' :: t => t.takeWhile (·.isDigit)
    | _ => []
  if intPart = [] ∧ fracPart = [] then none
  else some (sl.1 * ((digitsToNat intPart : ℚ) +
    (digitsToNat fracPart : ℚ) / ((10 ^ fracPart.length : ℕ) : ℚ)))

/-- `parseFloat(v)` for the values the cascade feeds it: a finite number
re-parses to itself, a string is parsed, everything else is `NaN`. -/
def jsParseFloat : JsVal → Option ℚ
  | .num q => some q
  | .str s => parseFloatChars s.toList
  | _ => none

/-- What `HttpFastStrategy.extractPrice`'s probes find in the fetched
markup: the content of the first JSON-LD `<script>` block together with
the outcome of `JSON.parse` on it, and the first capture of the three
price-meta regexes (`[\x5cd.]+`). -/
structure HtmlDoc where
  jsonLd : Option (Except JsError JsVal)
  metaPrice : Option String

/-- `jsonLd.find(i => i['@type'] === 'Product')`; the property access in
the callback throws on `null` elements. -/
def findProduct : List JsVal → Except JsError JsVal
  | [] => .ok .jsUndefined
  | v :: vs => do
    let t ← v.getField "@type"
    match t with
    | .str s => if s = "Product" then pure v else findProduct vs
    | _ => findProduct vs

/-- `Array.isArray(jsonLd) ? jsonLd.find(…)?.offers : jsonLd.offers`. -/
def jsonLdOffer (v : JsVal) : Except JsError JsVal :=
  match v with
  | .arr es => (findProduct es).map (fun found => found.getFieldOpt "offers")
  | _ => v.getField "offers"

/-- `const priceVal = offer?.price || offer?.[0]?.price`. -/
def offerPriceVal (offer : JsVal) : JsVal :=
  jsOr (offer.getFieldOpt "price") ((offer.getIndexOpt 0).getFieldOpt "price")

/-- The body of the JSON-LD `try` block after `JSON.parse` succeeded:
`.ok none` when `priceVal` is falsy (no `return` executed — fall
through), `.error` when a property access threw (swallowed by the
`catch`). -/
def stage1Compute (v : JsVal) : Except JsError (Option (Option ℚ × JsVal)) :=
  match jsonLdOffer v with
  | .error e => .error e
  | .ok offer =>
    if (offerPriceVal offer).truthy then
      .ok (some (jsParseFloat (offerPriceVal offer),
        jsOr (offer.getFieldOpt "priceCurrency") (.str "COP")))
    else .ok none

/-- Stage 1 of the cascade (JSON-LD): a returned `{price, currency}` or
fall-through (no block, parse failure, swallowed throw, falsy price). -/
def stage1 (doc : HtmlDoc) : Option (Option ℚ × JsVal) :=
  match doc.jsonLd with
  | none => none
  | some parseRes =>
    match parseRes.bind stage1Compute with
    | .ok r => r
    | .error _ => none

/-- Stage 2 of the cascade (meta tags): `if (metaPrice && metaPrice[1])
return { price: parseFloat(metaPrice[1]), currency: 'COP' }`. -/
def stage2 (doc : HtmlDoc) : Option (Option ℚ × JsVal) :=
  match doc.metaPrice with
  | none => none
  | some s => if s ≠ "" then some (parseFloatChars s.toList, .str "COP") else none

/-- `HttpFastStrategy.extractPrice`: the two stages in order, and the
`let price = 0; let currency = 'COP'; … return { price, currency }`
default when neither stage returned.  The `merchant` parameter is unused
in the source too. -/
def extractPrice (html : HtmlDoc) (merchant : String) : Option ℚ × JsVal :=
  match stage1 html with
  | some r => r
  | none =>
    match stage2 html with
    | some r => r
    | none =>
      let _ := merchant
      (some 0, .str "COP")

/-- The `fetch` response: status, status text and the outcome of
`response.text()` abstracted to the probe results. -/
structure HttpResponse where
  status : Nat
  statusText : String
  text : Except JsError HtmlDoc

/-- `Response.ok`: status in the inclusive range 200–299. -/
def HttpResponse.ok (r : HttpResponse) : Bool :=
  decide (200 ≤ r.status ∧ r.status ≤ 299)

/-- The outcome of the single `fetch` of `HttpFastStrategy.track`. -/
structure HttpEnv where
  fetchResult : Except JsError HttpResponse

/-- The failure result every error path of a strategy builds. -/
def mkFailure (p : ProductToTrack) (err : String) (name : String) : TrackingResult :=
  ⟨p.id, false, none, .jsUndefined, some err, name⟩

/-- The `try` block of `HttpFastStrategy.track`; `throw`s are the two
`throw new Error(…)` statements and rejections of `fetch`/`text`. -/
def httpTrackBody (env : HttpEnv) (p : ProductToTrack) :
    Except JsError TrackingResult :=
  match env.fetchResult with
  | .error e => .error e
  | .ok response =>
    match response.ok with
    | false =>
      if response.status = 403 ∨ response.status = 401 then
        .error ⟨"Auth/Bot blockade (HTTP " ++ toString response.status ++ ")"⟩
      else
        .error ⟨"HTTP " ++ toString response.status ++ " " ++ response.statusText⟩
    | true =>
      match response.text with
      | .error e => .error e
      | .ok html =>
        if priceTruthy (extractPrice html p.merchant).1 = false then
          .ok (mkFailure p "Price not found" "HTTP_FAST")
        else
          .ok ⟨p.id, true, (extractPrice html p.merchant).1,
            (extractPrice html p.merchant).2, none, "HTTP_FAST"⟩

/-- `HttpFastStrategy.track`: the whole body sits in `try { … } catch
(error) { return {success:false, error: error.message, …} }`, so the
strategy returns a plain `TrackingResult` for every environment. -/
def httpTrack (env : HttpEnv) (p : ProductToTrack) : TrackingResult :=
  match httpTrackBody env p with
  | .ok r => r
  | .error e => mkFailure p e.msg "HTTP_FAST"

/-- `ExtractedPrice` from `types.ts`, as produced by the injected
adapter's `parsePrice` (`amount = none` is JavaScript `null`). -/
structure BrowserExtractedPrice where
  raw : Option String
  amount : Option ℚ
  currency : Option String
deriving DecidableEq, Repr

/-- `ExtractedProduct` from `types.ts`. -/
structure BrowserExtracted where
  title : String
  price : BrowserExtractedPrice
  image : Option String
  sku : Option String
deriving DecidableEq, Repr

/-- Outcomes of the puppeteer operations one `BrowserHardStrategy.track`
call performs.  `gotoResult` and `waitResult` are absent because the
source wraps both in `try {…} catch {}` and ignores the outcome
entirely. -/
structure BrowserEnv where
  /-- whether `this.browser` is already non-null on entry -/
  browserInitialized : Bool
  /-- first `puppeteer.launch` in `initBrowser` -/
  launch1 : Except JsError Unit
  /-- `execSync('npx puppeteer browsers install chrome')` -/
  chromeInstall : Except JsError Unit
  /-- the relaunch after a successful install -/
  launch2 : Except JsError Unit
  /-- `browser.newPage()` -/
  newPage : Except JsError Unit
  /-- viewport / user-agent / headers / request-interception setup -/
  pageSetup : Except JsError Unit
  /-- `page.url()` after navigation and the smart wait -/
  pageUrl : String
  /-- `page.evaluate(adapterLogic)` -/
  evalResult : Except JsError (Option BrowserExtracted)

/-- `initBrowser`: a launch failure whose message contains
`Could not find Chrome` triggers one install-and-relaunch attempt; any
other failure — and any failure of the install or relaunch — is
rethrown.  Nothing here is inside `track`'s `try`. -/
def initBrowser (env : BrowserEnv) : Except JsError Unit :=
  match env.launch1 with
  | .ok _ => .ok ()
  | .error e =>
    if decide (("Could not find Chrome".toList) <:+: e.msg.toList) then
      match env.chromeInstall with
      | .error e2 => .error e2
      | .ok _ => env.launch2
    else .error e

/-- The `try` block of `BrowserHardStrategy.track` (after the browser
exists): page creation and setup can throw; the bot-detection URL check
short-circuits extraction; `page.evaluate` can throw; a missing
extraction result or `null` amount is the `'Price not found'` return. -/
def browserTrackBody (env : BrowserEnv) (p : ProductToTrack) :
    Except JsError TrackingResult :=
  match env.newPage with
  | .error e => .error e
  | .ok _ =>
    match env.pageSetup with
    | .error e => .error e
    | .ok _ =>
      if decide (("account-verification".toList) <:+: env.pageUrl.toList) ∨
          decide (("/gz/".toList) <:+: env.pageUrl.toList) then
        .ok (mkFailure p "Bot detection (redirect)" "BROWSER_HARD")
      else
        match env.evalResult with
        | .error e => .error e
        | .ok extractedData =>
          match extractedData with
          | none => .ok (mkFailure p "Price not found" "BROWSER_HARD")
          | some d =>
            match d.price.amount with
            | none => .ok (mkFailure p "Price not found" "BROWSER_HARD")
            | some amt =>
              .ok ⟨p.id, true, some amt,
                .str ((d.price.currency.filter (· ≠ "")).getD "COP"),
                none, "BROWSER_HARD"⟩

/-- `BrowserHardStrategy.track`.  The lazy `initBrowser` call sits
BEFORE the `try`, so its failure escapes as a rejected promise — the
`Except.error` of the result type; everything after it is caught and
normalized into a failure `TrackingResult`. -/
def browserTrack (env : BrowserEnv) (p : ProductToTrack) :
    Except JsError TrackingResult :=
  match (if env.browserInitialized then Except.ok () else initBrowser env) with
  | .error e => .error e
  | .ok _ =>
    .ok (match browserTrackBody env p with
      | .ok r => r
      | .error e => mkFailure p e.msg "BROWSER_HARD")

lemma priceTruthy_iff (o : Option ℚ) :
    priceTruthy o = true ↔ ∃ q, o = some q ∧ q ≠ 0 := by
  cases o with
  | none => simp [priceTruthy]
  | some q => simp [priceTruthy]

lemma httpTrackBody_ok_shape {env : HttpEnv} {p : ProductToTrack}
    {r : TrackingResult} (h : httpTrackBody env p = .ok r) :
    r.strategyUsed = "HTTP_FAST" ∧
    (r.success = true ∨ (r.success = false ∧ r.error.isSome = true)) := by
  unfold httpTrackBody at h
  split at h
  · cases h
  split at h
  · split at h <;> cases h
  · split at h
    · cases h
    · split at h
      · injection h with h
        subst h
        exact ⟨rfl, Or.inr ⟨rfl, rfl⟩⟩
      · injection h with h
        subst h
        exact ⟨rfl, Or.inl rfl⟩

lemma browserTrackBody_ok_shape {env : BrowserEnv} {p : ProductToTrack}
    {r : TrackingResult} (h : browserTrackBody env p = .ok r) :
    r.strategyUsed = "BROWSER_HARD" ∧
    (r.success = true ∨ (r.success = false ∧ r.error.isSome = true)) := by
  unfold browserTrackBody at h
  split at h
  · cases h
  split at h
  · cases h
  split at h
  · injection h with h
    subst h
    exact ⟨rfl, Or.inr ⟨rfl, rfl⟩⟩
  · split at h
    · cases h
    · split at h
      · injection h with h
        subst h
        exact ⟨rfl, Or.inr ⟨rfl, rfl⟩⟩
      · split at h
        · injection h with h
          subst h
          exact ⟨rfl, Or.inr ⟨rfl, rfl⟩⟩
        · injection h with h
          subst h
          exact ⟨rfl, Or.inl rfl⟩

/-- C6 as stated is false for the browser strategy: with no browser yet
and `puppeteer.launch` rejecting with a non-"Could not find Chrome"
error, `track` does not return a `TrackingResult` — the exception
escapes its boundary (the model's `Except.error`). -/
theorem browserTrack_renderer_failure_escapes :
    browserTrack
      ⟨false, .error ⟨"Protocol error: Connection closed"⟩, .ok (), .ok (),
        .ok (), .ok (), "https://example.com/item", .ok none⟩
      ⟨"p1", "mercadolibre", "https://example.com/item", "item"⟩ =
      .error ⟨"Protocol error: Connection closed"⟩ := by
  rfl

/-- C6 amended: the HTTP strategy never throws past `track` — every
environment yields a `TrackingResult` with `strategyUsed` set and, on
failure, an error message; the browser strategy does the same for every
environment in which the shared renderer is already initialized or its
initialization succeeds.  (Renderer-initialization failure, the
run-fatal class, escapes — see
`browserTrack_renderer_failure_escapes`.) -/
theorem strategies_never_throw_past_boundary :
    (∀ (env : HttpEnv) (p : ProductToTrack),
      (httpTrack env p).strategyUsed = "HTTP_FAST" ∧
      ((httpTrack env p).success = true ∨
        ((httpTrack env p).success = false ∧
          (httpTrack env p).error.isSome = true))) ∧
    (∀ (env : BrowserEnv) (p : ProductToTrack),
      (env.browserInitialized = true ∨ initBrowser env = .ok ()) →
      ∃ r, browserTrack env p = .ok r ∧ r.strategyUsed = "BROWSER_HARD" ∧
        (r.success = true ∨ (r.success = false ∧ r.error.isSome = true))) := by
  constructor
  · intro env p
    unfold httpTrack
    cases hb : httpTrackBody env p with
    | error e => exact ⟨rfl, Or.inr ⟨rfl, rfl⟩⟩
    | ok r => exact httpTrackBody_ok_shape hb
  · intro env p hinit
    have hi : (if env.browserInitialized then Except.ok () else initBrowser env) =
        Except.ok () := by
      rcases hinit with h | h
      · rw [if_pos h]
      · by_cases hb : env.browserInitialized = true
        · rw [if_pos hb]
        · rw [if_neg hb]; exact h
    cases hbody : browserTrackBody env p with
    | ok r =>
      refine ⟨r, ?_, browserTrackBody_ok_shape hbody⟩
      unfold browserTrack
      rw [hi, hbody]
    | error e =>
      refine ⟨mkFailure p e.msg "BROWSER_HARD", ?_, rfl, Or.inr ⟨rfl, rfl⟩⟩
      unfold browserTrack
      rw [hi, hbody]

/-- Witness for `strategies_never_throw_past_boundary`: with an
already-initialized browser and a bot-check redirect, `track` returns a
normal failure result. -/
theorem strategies_never_throw_past_boundary_witness :
    ∃ r, browserTrack
        ⟨true, .ok (), .ok (), .ok (), .ok (), .ok (),
          "https://www.mercadolibre.com.co/account-verification", .ok none⟩
        ⟨"p1", "mercadolibre", "https://example.com/item", "item"⟩ = .ok r ∧
      r.strategyUsed = "BROWSER_HARD" ∧
      (r.success = true ∨ (r.success = false ∧ r.error.isSome = true)) :=
  strategies_never_throw_past_boundary.2
    ⟨true, .ok (), .ok (), .ok (), .ok (), .ok (),
      "https://www.mercadolibre.com.co/account-verification", .ok none⟩
    ⟨"p1", "mercadolibre", "https://example.com/item", "item"⟩ (Or.inl rfl)

lemma httpTrackBody_ok_success {env : HttpEnv} {p : ProductToTrack}
    {r : TrackingResult} (h : httpTrackBody env p = .ok r)
    (hs : r.success = true) : ∃ q, r.price = some q ∧ q ≠ 0 := by
  unfold httpTrackBody at h
  split at h
  · cases h
  split at h
  · split at h <;> cases h
  · split at h
    · cases h
    · split at h
      · injection h with h
        subst h
        cases hs
      · rename_i hfalse
        injection h with h
        subst h
        simp only [Bool.not_eq_false] at hfalse
        exact (priceTruthy_iff _).mp hfalse

/-- C9: an extracted amount of exactly 0 is "not found".  (1) A success
result of the HTTP strategy never carries price 0 (nor `NaN`).  (2) If
the cascade's overall extraction yields a falsy price — 0, `NaN`, or the
zero default — the tracking result is exactly
`{success: false, error: 'Price not found'}`.  (3) In the JSON-LD stage,
a `priceVal` that is the number 0 is falsy, so the stage returns nothing
and (4) the cascade falls through past stage 1 to the meta-tag stage /
default. -/
theorem http_zero_price_not_found :
    (∀ (env : HttpEnv) (p : ProductToTrack),
      (httpTrack env p).success = true →
        ∃ q, (httpTrack env p).price = some q ∧ q ≠ 0) ∧
    (∀ (env : HttpEnv) (p : ProductToTrack) (resp : HttpResponse) (doc : HtmlDoc),
      env.fetchResult = .ok resp → resp.ok = true → resp.text = .ok doc →
      priceTruthy (extractPrice doc p.merchant).1 = false →
      httpTrack env p = mkFailure p "Price not found" "HTTP_FAST") ∧
    (∀ (v offer : JsVal), jsonLdOffer v = .ok offer →
      offerPriceVal offer = .num 0 → stage1Compute v = .ok none) ∧
    (∀ (doc : HtmlDoc) (v offer : JsVal), doc.jsonLd = some (.ok v) →
      jsonLdOffer v = .ok offer → offerPriceVal offer = .num 0 →
      stage1 doc = none) := by
  have hc3 : ∀ (v offer : JsVal), jsonLdOffer v = .ok offer →
      offerPriceVal offer = .num 0 → stage1Compute v = .ok none := by
    intro v offer h1 h2
    unfold stage1Compute
    simp only [h1, h2, JsVal.truthy]
    norm_num
  refine ⟨?_, ?_, hc3, ?_⟩
  · intro env p
    unfold httpTrack
    cases hb : httpTrackBody env p with
    | error e => intro hs; cases hs
    | ok r => exact httpTrackBody_ok_success hb
  · intro env p resp doc h1 hok htext hfalsy
    unfold httpTrack httpTrackBody
    simp only [h1, hok, htext, hfalsy]
    simp
  · intro doc v offer h0 h1 h2
    unfold stage1
    simp only [h0, Except.bind, hc3 v offer h1 h2]

/-- Witness for `http_zero_price_not_found`: a 200 response whose only
extractable price is the meta capture `"0"` produces the
`'Price not found'` failure. -/
theorem http_zero_price_not_found_witness :
    httpTrack ⟨.ok ⟨200, "OK", .ok ⟨none, some "0"⟩⟩⟩
      ⟨"p1", "mercadolibre", "https://example.com/item", "item"⟩ =
      mkFailure ⟨"p1", "mercadolibre", "https://example.com/item", "item"⟩
        "Price not found" "HTTP_FAST" :=
  http_zero_price_not_found.2.1 ⟨.ok ⟨200, "OK", .ok ⟨none, some "0"⟩⟩⟩
    ⟨"p1", "mercadolibre", "https://example.com/item", "item"⟩
    ⟨200, "OK", .ok ⟨none, some "0"⟩⟩ ⟨none, some "0"⟩ rfl rfl rfl
    (by
      rw [show (extractPrice ⟨none, some "0"⟩
          (⟨"p1", "mercadolibre", "https://example.com/item", "item"⟩ :
            ProductToTrack).merchant).1 =
        some ((1 : ℚ) * (((0 : ℕ) : ℚ) + ((0 : ℕ) : ℚ) / (((1 : ℕ) : ℕ) : ℚ)))
        from rfl]
      simp [priceTruthy])
